import Mathlib

/-!
# Verification of the track-similarity core of `stravaplot`

Shallow embedding of `src/stravaplot/similarity.py`.  Python strings are
embedded as `List Char` (a Python `str` is a sequence of code points);
Python's unsigned 32-bit arithmetic is `Nat` with explicit `% 2 ^ 32`;
the failure of Python's `min([])` (a `ValueError`) is `Option`.
-/

namespace StravaPlot

/-! ## External hash: `mmh3.hash(key, seed, False)`

The `mmh3` library computes MurmurHash3 (x86, 32-bit) of the UTF-8
encoding of the string; with third argument `False` the result is the
unsigned 32-bit value.  We implement the algorithm over `Nat`, reducing
modulo `2 ^ 32` wherever the C code relies on `uint32_t` wraparound. -/

/-- UTF-8 encoding of a single code point, as a list of byte values. -/
def utf8Bytes (c : Char) : List Nat :=
  let n := c.toNat
  if n < 0x80 then [n]
  else if n < 0x800 then
    [0xC0 ||| (n >>> 6), 0x80 ||| (n &&& 0x3F)]
  else if n < 0x10000 then
    [0xE0 ||| (n >>> 12), 0x80 ||| ((n >>> 6) &&& 0x3F), 0x80 ||| (n &&& 0x3F)]
  else
    [0xF0 ||| (n >>> 18), 0x80 ||| ((n >>> 12) &&& 0x3F),
     0x80 ||| ((n >>> 6) &&& 0x3F), 0x80 ||| (n &&& 0x3F)]

/-- UTF-8 encoding of a string (list of code points). -/
def strBytes : List Char → List Nat
  | [] => []
  | c :: cs => utf8Bytes c ++ strBytes cs

/-- 32-bit left rotation. -/
def rotl32 (x r : Nat) : Nat :=
  ((x <<< r) ||| (x >>> (32 - r))) % 2 ^ 32

/-- MurmurHash3 x86_32 finalization mix. -/
def mmh3fmix (h : Nat) : Nat :=
  let h := h ^^^ (h >>> 16)
  let h := (h * 0x85ebca6b) % 2 ^ 32
  let h := h ^^^ (h >>> 13)
  let h := (h * 0xc2b2ae35) % 2 ^ 32
  h ^^^ (h >>> 16)

/-- MurmurHash3 x86_32 body: consume 4-byte little-endian blocks, then the
1-3 byte tail.  An empty tail leaves the accumulator unchanged. -/
def mmh3body (h : Nat) : List Nat → Nat
  | b0 :: b1 :: b2 :: b3 :: rest =>
    let k := b0 ||| (b1 <<< 8) ||| (b2 <<< 16) ||| (b3 <<< 24)
    let k := (k * 0xcc9e2d51) % 2 ^ 32
    let k := rotl32 k 15
    let k := (k * 0x1b873593) % 2 ^ 32
    let h := h ^^^ k
    let h := rotl32 h 13
    mmh3body ((h * 5 + 0xe6546b64) % 2 ^ 32) rest
  | tail =>
    match tail with
    | [] => h
    | _ =>
      let k := match tail with
        | [t0] => t0
        | [t0, t1] => t0 ||| (t1 <<< 8)
        | [t0, t1, t2] => t0 ||| (t1 <<< 8) ||| (t2 <<< 16)
        | _ => 0
      let k := (k * 0xcc9e2d51) % 2 ^ 32
      let k := rotl32 k 15
      let k := (k * 0x1b873593) % 2 ^ 32
      h ^^^ k

/-- MurmurHash3 x86_32 of a byte sequence with a 32-bit seed. -/
def mmh3_32 (bytes : List Nat) (seed : Nat) : Nat :=
  mmh3fmix (mmh3body (seed % 2 ^ 32) bytes ^^^ (bytes.length % 2 ^ 32))

/-- Model of `mmh3.hash(shingle, seed, False)`: unsigned 32-bit
MurmurHash3 of the UTF-8 encoding of the string. -/
def mmh3hash (s : List Char) (seed : Nat) : Nat :=
  mmh3_32 (strBytes s) seed

/-! ## `window` (similarity.py lines 13-19)

```python
def window(iterable, size):
    iters = tee(iterable, size)
    for i in range(1, size):
        for each in iters[i:]:
            next(each, None)
    return zip(*iters)
```

After the advancing loop, iterator `i` has consumed `i` elements, i.e. it
denotes `l.drop i`; `zip(*iters)` is the truncating transpose of the family
`[l.drop 0, l.drop 1, ..., l.drop (size-1)]`.  `zipAll` is that transpose:
Python's `zip` yields tuples while every iterator has a next element and
stops at the first exhausted one (`zip()` of no iterators yields nothing). -/

/-- Transpose step, structurally recursive on the first list: emit a tuple
while the first iterator and all others still have elements. -/
def zipAllGo {α : Type} : List α → List (List α) → List (List α)
  | [], _ => []
  | a :: l, ls =>
    if ls.any (fun t => t.isEmpty) then []
    else (a :: ls.map (fun t => t.headD a)) :: zipAllGo l (ls.map (fun t => t.tail))

/-- Truncating transpose, the denotation of Python `zip(*lists)`. -/
def zipAll {α : Type} : List (List α) → List (List α)
  | [] => []
  | l :: ls => zipAllGo l ls

/-- Embedding of `window(iterable, size)` from similarity.py: zip of
`size` iterators, the `i`-th advanced `i` times. -/
def window {α : Type} (l : List α) (size : Nat) : List (List α) :=
  zipAll ((List.range size).map (fun i => l.drop i))

/-! ## `common_prefix_len` (similarity.py lines 22-28)

```python
def common_prefix_len(a, b):
    min_len = min(len(a), len(b))
    for i in range(min(len(a), len(b))):
        if a[i] != b[i]:
            return i
    return min_len
```

The loop returns the first index where the strings disagree, or the
minimum length when no index below it disagrees; equivalently, the
recursion counting leading positions with equal characters. -/

def common_prefix_len : List Char → List Char → Nat
  | a :: as, b :: bs => if a = b then common_prefix_len as bs + 1 else 0
  | _, _ => 0

/-! ## `make_shingles` (similarity.py lines 32-36)

```python
def make_shingles(raw, size):
    no_repeats = raw[raw.shift() != raw]
    shingles = set([' '.join(group) for group in window(no_repeats, size)])
    return shingles
```

`raw.shift() != raw` keeps element `i` iff it differs from element `i-1`
(the first element is compared against NaN, which is unequal to
everything, so it is always kept). -/

/-- The pandas filter `raw[raw.shift() != raw]` applied to the elements
after the first: keep `b` iff it differs from the previous raw element. -/
def noRepeatsAux {α : Type} [DecidableEq α] (prev : α) : List α → List α
  | [] => []
  | b :: l => if b = prev then noRepeatsAux b l else b :: noRepeatsAux b l

/-- Embedding of `raw[raw.shift() != raw]`: drop each element equal to
its predecessor; the first element is always kept. -/
def noRepeats {α : Type} [DecidableEq α] : List α → List α
  | [] => []
  | a :: l => a :: noRepeatsAux a l

/-- Python `' '.join(group)` on a list of strings. -/
def joinSpace : List (List Char) → List Char
  | [] => []
  | [g] => g
  | g :: gs => g ++ ' ' :: joinSpace gs

/-- Embedding of `make_shingles(raw, size)`: dedup consecutive repeats,
space-join each sliding window, collect into a set. -/
def make_shingles (raw : List (List Char)) (size : Nat) : Finset (List Char) :=
  ((window (noRepeats raw) size).map (fun group => joinSpace group)).toFinset

/-! ## `b1_minhash_sig` (similarity.py lines 39-45)

```python
def b1_minhash_sig(shingles, components=256):
    sig = [
        min([mmh3.hash(shingle, seed, False) for shingle in shingles]) & 1
        for seed in range(components)
    ]
    return sig
```

On an empty shingle set, `min([])` raises `ValueError` at the first
seed, so the call fails — except when `components = 0`: then `range(0)`
is empty, the comprehension body is never evaluated, and the function
returns `[]`.  The embedding returns `none` exactly when the source
raises.  For a nonempty set the Python iterates the set in some order;
the embedding takes a list of shingles (the order is proved irrelevant
below). -/

def b1_minhash_sig (shingles : List (List Char)) (components : Nat) : Option (List Nat) :=
  match shingles with
  | [] => if components = 0 then some [] else none
  | s0 :: rest =>
    some ((List.range components).map (fun seed =>
      ((rest.map (fun shingle => mmh3hash shingle seed)).foldl min
        (mmh3hash s0 seed)) &&& 1))

/-! ## Specification-side definitions

These follow the spec's words (not the source) and are compared against
the source-derived definitions in the refinement theorems below. -/

/-- Spec §4.3: collapse runs of identical adjacent symbols (first element
kept), then join each length-`size` sliding window of the deduplicated
sequence with a single space; collect into a set.  The sliding windows are
written directly by the index formula of spec §8. -/
def make_shingles_specModel (raw : List (List Char)) (size : Nat) : Finset (List Char) :=
  ((List.range ((raw.destutter (· ≠ ·)).length + 1 - size)).map
    (fun i => joinSpace (((raw.destutter (· ≠ ·)).drop i).take size))).toFinset

/-- Splitting a string on a separator character (the mathematical reading
of "splits on the space character into symbols" in the invariant about
shingle shape). -/
def splitOnChar (c : Char) : List Char → List (List Char)
  | [] => [[]]
  | a :: l =>
    if a = c then [] :: splitOnChar c l
    else
      match splitOnChar c l with
      | [] => [[a]]
      | g :: gs => (a :: g) :: gs

/-! ## Basic facts about the hash and about Python `min` -/

theorem xor_shiftRight_lt {x n k : Nat} (hx : x < 2 ^ n) : x ^^^ (x >>> k) < 2 ^ n :=
  Nat.xor_lt_two_pow hx
    (lt_of_le_of_lt (by rw [Nat.shiftRight_eq_div_pow]; exact Nat.div_le_self _ _) hx)

theorem mmh3fmix_lt (h : Nat) : mmh3fmix h < 2 ^ 32 :=
  xor_shiftRight_lt (Nat.mod_lt _ (by norm_num))

theorem mmh3hash_lt (s : List Char) (seed : Nat) : mmh3hash s seed < 2 ^ 32 :=
  mmh3fmix_lt _

set_option maxRecDepth 200000 in
/-- Sanity check against a published MurmurHash3 x86_32 test vector. -/
theorem mmh3_32_vector_test : mmh3_32 [116, 101, 115, 116] 0 = 0xba6bd213 := by decide

set_option maxRecDepth 200000 in
/-- Sanity check: seeded hash of the empty input. -/
theorem mmh3_32_vector_empty_seed1 : mmh3_32 [] 1 = 0x514E28B7 := by decide

theorem foldl_min_le_init (vs : List Nat) (v : Nat) : vs.foldl min v ≤ v := by
  induction vs generalizing v with
  | nil => exact le_refl v
  | cons b vs ih =>
    exact le_trans (ih (min v b)) (min_le_left v b)

theorem foldl_min_mem (vs : List Nat) (v : Nat) : vs.foldl min v ∈ v :: vs := by
  induction vs generalizing v with
  | nil => simp
  | cons b vs ih =>
    have := ih (min v b)
    rcases List.mem_cons.mp this with h | h
    · rcases min_choice v b with hv | hb
      · rw [List.foldl_cons, h, hv]; exact List.mem_cons_self _ _
      · rw [List.foldl_cons, h, hb]; simp
    · simp [List.foldl_cons]
      right; right; exact h

theorem foldl_min_le_mem (vs : List Nat) (v x : Nat) (hx : x ∈ v :: vs) :
    vs.foldl min v ≤ x := by
  induction vs generalizing v with
  | nil =>
    rcases List.mem_cons.mp hx with h | h
    · exact h ▸ le_refl v
    · simp at h
  | cons b vs ih =>
    rw [List.foldl_cons]
    rcases List.mem_cons.mp hx with h | h
    · subst h
      exact le_trans (foldl_min_le_init vs _) (min_le_left _ _)
    · rcases List.mem_cons.mp h with h | h
      · subst h
        exact le_trans (foldl_min_le_init vs _) (min_le_right _ _)
      · exact ih (min v b) (List.mem_cons_of_mem _ h)

theorem foldl_min_eq_of_mem_iff (v1 v2 : Nat) (l1 l2 : List Nat)
    (h : ∀ x, x ∈ v1 :: l1 ↔ x ∈ v2 :: l2) : l1.foldl min v1 = l2.foldl min v2 := by
  apply le_antisymm
  · exact foldl_min_le_mem l1 v1 _ ((h _).mpr (foldl_min_mem l2 v2))
  · exact foldl_min_le_mem l2 v2 _ ((h _).mp (foldl_min_mem l1 v1))

/-! ## Claims about `b1_minhash_sig` -/

/-- C1: for every nonempty shingle set `S` and components count `c ≥ 1`,
the signature has at each position `s < c` exactly the least-significant
bit of the minimum, over the shingles of `S`, of the 32-bit unsigned
seeded MurmurHash3 hash of the shingle with seed `s`. -/
theorem b1_minhash_sig_component_spec (S : List (List Char)) (c : Nat)
    (hS : S ≠ []) (_hc : 1 ≤ c) (s : Nat) (hs : s < c) :
    ∃ sig m, b1_minhash_sig S c = some sig ∧
      m ∈ S.map (fun shingle => mmh3hash shingle s) ∧
      (∀ x ∈ S.map (fun shingle => mmh3hash shingle s), m ≤ x) ∧
      m < 2 ^ 32 ∧ sig[s]? = some (m % 2) := by
  match S with
  | [] => exact absurd rfl hS
  | s0 :: rest =>
    refine ⟨_, (rest.map (fun shingle => mmh3hash shingle s)).foldl min (mmh3hash s0 s),
      rfl, ?_, ?_, ?_, ?_⟩
    · have := foldl_min_mem (rest.map (fun shingle => mmh3hash shingle s)) (mmh3hash s0 s)
      simpa using this
    · intro x hx
      exact foldl_min_le_mem _ _ x (by simpa using hx)
    · have hmem := foldl_min_mem (rest.map (fun shingle => mmh3hash shingle s)) (mmh3hash s0 s)
      rcases List.mem_cons.mp hmem with h | h
      · rw [h]; exact mmh3hash_lt _ _
      · rcases List.mem_map.mp h with ⟨sh, _, hsh⟩
        rw [← hsh]; exact mmh3hash_lt _ _
    · rw [List.getElem?_map, List.getElem?_range hs]
      simp [Nat.and_one_is_mod]

theorem b1_minhash_sig_component_spec_witness :
    ∃ sig m, b1_minhash_sig [['a']] 1 = some sig ∧
      m ∈ [['a']].map (fun shingle => mmh3hash shingle 0) ∧
      (∀ x ∈ [['a']].map (fun shingle => mmh3hash shingle 0), m ≤ x) ∧
      m < 2 ^ 32 ∧ sig[0]? = some (m % 2) :=
  b1_minhash_sig_component_spec [['a']] 1 (by decide) (by decide) 0 (by decide)

/-- C4: on the empty shingle set, for every components count,
`b1_minhash_sig` either fails or returns the all-zero sentinel: with
`c ≥ 1` Python's `min([])` raises `ValueError` at the first seed, and
with `c = 0` the comprehension body is never evaluated and the result is
the empty signature `[]` — the (vacuously all-zero) signature of length
`c = 0`.  No other value is ever returned, so an arbitrary
valid-looking signature is never silently produced. -/
theorem b1_minhash_sig_empty (c : Nat) :
    (1 ≤ c → b1_minhash_sig [] c = none) ∧
    (c = 0 → b1_minhash_sig [] c = some []) ∧
    (∀ sig, b1_minhash_sig [] c = some sig →
      sig.length = c ∧ ∀ b ∈ sig, b = 0) := by
  refine ⟨?_, ?_, ?_⟩
  · intro hc
    show (if c = 0 then some ([] : List Nat) else none) = none
    rw [if_neg (by omega)]
  · intro hc
    subst hc
    rfl
  · intro sig hsig
    by_cases hc : c = 0
    · subst hc
      have h : ([] : List Nat) = sig := Option.some.inj hsig
      subst h
      exact ⟨rfl, by simp⟩
    · rw [show b1_minhash_sig [] c = none from by
        show (if c = 0 then some ([] : List Nat) else none) = none
        exact if_neg hc] at hsig
      exact absurd hsig (by simp)

theorem b1_minhash_sig_empty_witness :
    ((1 ≤ 2 → b1_minhash_sig [] 2 = none) ∧
     (2 = 0 → b1_minhash_sig [] 2 = some []) ∧
     (∀ sig, b1_minhash_sig [] 2 = some sig →
       sig.length = 2 ∧ ∀ b ∈ sig, b = 0)) ∧
    ((1 ≤ 0 → b1_minhash_sig [] 0 = none) ∧
     (0 = 0 → b1_minhash_sig [] 0 = some []) ∧
     (∀ sig, b1_minhash_sig [] 0 = some sig →
       sig.length = 0 ∧ ∀ b ∈ sig, b = 0)) :=
  ⟨b1_minhash_sig_empty 2, b1_minhash_sig_empty 0⟩

/-- C5: for every nonempty shingle set and components count `c ≥ 0`, the
returned signature has length exactly `c` and every entry is 0 or 1. -/
theorem b1_minhash_sig_shape (S : List (List Char)) (c : Nat) (hS : S ≠ []) :
    ∃ sig, b1_minhash_sig S c = some sig ∧ sig.length = c ∧
      ∀ b ∈ sig, b = 0 ∨ b = 1 := by
  match S with
  | [] => exact absurd rfl hS
  | s0 :: rest =>
    refine ⟨_, rfl, by simp, ?_⟩
    intro b hb
    rcases List.mem_map.mp hb with ⟨seed, _, hseed⟩
    rw [← hseed, Nat.and_one_is_mod]
    omega

theorem b1_minhash_sig_shape_witness :
    ∃ sig, b1_minhash_sig [['a'], ['b']] 3 = some sig ∧ sig.length = 3 ∧
      ∀ b ∈ sig, b = 0 ∨ b = 1 :=
  b1_minhash_sig_shape [['a'], ['b']] 3 (by decide)

/-- C6: `b1_minhash_sig` is deterministic: two shingle lists that are
equal as sets (the Python input is a set, iterated in some order) and the
same components count give identical signatures. -/
theorem b1_minhash_sig_deterministic (S1 S2 : List (List Char)) (c : Nat)
    (h1 : S1 ≠ []) (hmem : ∀ x, x ∈ S1 ↔ x ∈ S2) :
    b1_minhash_sig S1 c = b1_minhash_sig S2 c := by
  match S1, S2 with
  | [], _ => exact absurd rfl h1
  | a :: as, [] =>
    exact absurd ((hmem a).mp (List.mem_cons_self a as)) (List.not_mem_nil a)
  | a :: as, b :: bs =>
    show some _ = some _
    refine congrArg some (List.map_congr_left ?_)
    intro seed _
    refine congrArg (fun z => z &&& 1) (foldl_min_eq_of_mem_iff _ _ _ _ ?_)
    intro x
    change x ∈ List.map (fun shingle => mmh3hash shingle seed) (a :: as) ↔
      x ∈ List.map (fun shingle => mmh3hash shingle seed) (b :: bs)
    constructor <;> intro hx <;> rcases List.mem_map.mp hx with ⟨sh, hsh, rfl⟩
    · exact List.mem_map.mpr ⟨sh, (hmem sh).mp hsh, rfl⟩
    · exact List.mem_map.mpr ⟨sh, (hmem sh).mpr hsh, rfl⟩

theorem b1_minhash_sig_deterministic_witness :
    b1_minhash_sig [['a'], ['b']] 2 = b1_minhash_sig [['b'], ['a']] 2 :=
  b1_minhash_sig_deterministic [['a'], ['b']] [['b'], ['a']] 2 (by decide)
    (by intro x; simp [List.mem_cons]; tauto)

/-! ## Claims about `window` -/

theorem range_map_headD_drop {α : Type} (t : List α) (k : Nat) (a : α) (hk : k ≤ t.length) :
    (List.range k).map (fun i => (t.drop i).headD a) = t.take k := by
  apply List.ext_getElem?
  intro n
  by_cases hn : n < k
  · rw [List.getElem?_map, List.getElem?_range hn, Option.map_some',
      List.getElem?_take_of_lt hn, List.headD_eq_head?_getD, List.head?_drop]
    have : n < t.length := lt_of_lt_of_le hn hk
    rw [List.getElem?_eq_getElem this]
    rfl
  · rw [List.getElem?_map, List.getElem?_eq_none (by simpa using not_lt.mp hn),
      List.getElem?_take_eq_none (not_lt.mp hn)]
    rfl

theorem drops_any_isEmpty_eq_false {α : Type} {t : List α} {k : Nat} (h : k ≤ t.length) :
    ((List.range k).map (fun i => t.drop i)).any (fun s => s.isEmpty) = false := by
  rw [List.any_eq_false]
  intro s hs
  rcases List.mem_map.mp hs with ⟨i, hi, rfl⟩
  rw [List.mem_range] at hi
  simp only [List.isEmpty_iff, List.drop_eq_nil_iff]
  omega

theorem drops_any_isEmpty_eq_true {α : Type} {t : List α} {k : Nat} (h : t.length < k) :
    ((List.range k).map (fun i => t.drop i)).any (fun s => s.isEmpty) = true := by
  rw [List.any_eq_true]
  refine ⟨t.drop t.length, List.mem_map.mpr ⟨t.length, List.mem_range.mpr ?_, rfl⟩, ?_⟩
  · omega
  · simp [List.isEmpty_iff, List.drop_eq_nil_iff]

theorem zipAllGo_drops {α : Type} (k : Nat) (l : List α) :
    zipAllGo l ((List.range k).map (fun i => l.drop (i + 1))) =
      (List.range (l.length - k)).map (fun i => (l.drop i).take (k + 1)) := by
  induction l with
  | nil => simp [zipAllGo]
  | cons a t ih =>
    have hfam : (List.range k).map (fun i => (a :: t).drop (i + 1)) =
        (List.range k).map (fun i => t.drop (i + 1 - 1)) := rfl
    by_cases hk : k ≤ t.length
    · show (if ((List.range k).map (fun i => (a :: t).drop (i + 1))).any (fun s => s.isEmpty)
          then []
          else (a :: ((List.range k).map (fun i => (a :: t).drop (i + 1))).map
              (fun s => s.headD a)) ::
            zipAllGo t (((List.range k).map (fun i => (a :: t).drop (i + 1))).map
              (fun s => s.tail))) = _
      have hguard : ((List.range k).map (fun i => (a :: t).drop (i + 1))).any
          (fun s => s.isEmpty) = false :=
        drops_any_isEmpty_eq_false (t := t) (k := k) hk
      rw [hguard]
      simp only [Bool.false_eq_true, if_false]
      have hheads : ((List.range k).map (fun i => (a :: t).drop (i + 1))).map
          (fun s => s.headD a) = t.take k := by
        rw [List.map_map]
        exact range_map_headD_drop t k a hk
      have htails : ((List.range k).map (fun i => (a :: t).drop (i + 1))).map
          (fun s => s.tail) = (List.range k).map (fun i => t.drop (i + 1)) := by
        rw [List.map_map]
        apply List.map_congr_left
        intro i _
        show ((a :: t).drop (i + 1)).tail = t.drop (i + 1)
        rw [List.drop_succ_cons, List.tail_drop]
      rw [hheads, htails, ih]
      have hlen : (a :: t).length - k = (t.length - k) + 1 := by
        simp only [List.length_cons]; omega
      rw [hlen, List.range_succ_eq_map, List.map_cons, List.map_map]
      rfl
    · show (if ((List.range k).map (fun i => (a :: t).drop (i + 1))).any (fun s => s.isEmpty)
          then []
          else (a :: ((List.range k).map (fun i => (a :: t).drop (i + 1))).map
              (fun s => s.headD a)) ::
            zipAllGo t (((List.range k).map (fun i => (a :: t).drop (i + 1))).map
              (fun s => s.tail))) = _
      have hguard : ((List.range k).map (fun i => (a :: t).drop (i + 1))).any
          (fun s => s.isEmpty) = true :=
        drops_any_isEmpty_eq_true (t := t) (k := k) (by omega)
      rw [hguard]
      simp only [if_true]
      have hlen : (a :: t).length - k = 0 := by
        simp only [List.length_cons]; omega
      rw [hlen]
      rfl

theorem window_eq {α : Type} (l : List α) (n : Nat) (hn : 1 ≤ n) :
    window l n = (List.range (l.length + 1 - n)).map (fun i => (l.drop i).take n) := by
  obtain ⟨k, rfl⟩ : ∃ k, n = k + 1 := ⟨n - 1, by omega⟩
  have harg : (List.range (k + 1)).map (fun i => l.drop i) =
      l :: (List.range k).map (fun i => l.drop (i + 1)) := by
    rw [List.range_succ_eq_map, List.map_cons, List.map_map]
    rfl
  show zipAll ((List.range (k + 1)).map (fun i => l.drop i)) = _
  rw [harg]
  show zipAllGo l ((List.range k).map (fun i => l.drop (i + 1))) = _
  rw [zipAllGo_drops]
  have hn' : l.length + 1 - (k + 1) = l.length - k := by omega
  rw [hn']

/-- C3: for `n ≥ 1`, `window(s, n)` yields `len(s) - n + 1` tuples when
`n ≤ len(s)` (an empty sequence when `n > len(s)`), every yielded tuple
has length `n`, and tuple `i` is `(s[i], ..., s[i+n-1])`. -/
theorem window_spec {α : Type} (l : List α) (n : Nat) (hn : 1 ≤ n) :
    (n ≤ l.length → (window l n).length = l.length - n + 1) ∧
    (l.length < n → window l n = []) ∧
    (∀ i t, (window l n)[i]? = some t →
      t.length = n ∧ ∀ j, j < n → t[j]? = l[i + j]?) := by
  rw [window_eq l n hn]
  refine ⟨?_, ?_, ?_⟩
  · intro hle
    rw [List.length_map, List.length_range]
    omega
  · intro hlt
    have h0 : l.length + 1 - n = 0 := by omega
    rw [h0]
    rfl
  · intro i t ht
    rw [List.getElem?_map] at ht
    by_cases hi : i < l.length + 1 - n
    · rw [List.getElem?_range hi, Option.map_some'] at ht
      obtain rfl : (l.drop i).take n = t := Option.some.inj ht
      have hin : i + n ≤ l.length := by omega
      constructor
      · rw [List.length_take, List.length_drop]
        omega
      · intro j hj
        rw [List.getElem?_take_of_lt hj, List.getElem?_drop]
    · rw [List.getElem?_eq_none (by simpa using not_lt.mp hi), Option.map_none'] at ht
      exact absurd ht (by simp)

theorem window_spec_witness :
    (3 ≤ [1, 2, 3, 4, 5].length → (window [1, 2, 3, 4, 5] 3).length = [1, 2, 3, 4, 5].length - 3 + 1) ∧
    ([1, 2, 3, 4, 5].length < 3 → window [1, 2, 3, 4, 5] 3 = []) ∧
    (∀ i t, (window [1, 2, 3, 4, 5] 3)[i]? = some t →
      t.length = 3 ∧ ∀ j, j < 3 → t[j]? = [1, 2, 3, 4, 5][i + j]?) :=
  window_spec [1, 2, 3, 4, 5] 3 (by decide)

/-! ## Claims about the deduplication step and `make_shingles` -/

theorem noRepeatsAux_eq_destutter' {α : Type} [DecidableEq α] (l : List α) :
    ∀ prev : α, prev :: noRepeatsAux prev l = List.destutter' (· ≠ ·) prev l := by
  induction l with
  | nil => intro prev; rfl
  | cons b l ih =>
    intro prev
    show prev :: (if b = prev then noRepeatsAux b l else b :: noRepeatsAux b l) =
      if prev ≠ b then prev :: List.destutter' (· ≠ ·) b l
      else List.destutter' (· ≠ ·) prev l
    by_cases h : b = prev
    · subst h
      rw [if_pos rfl, if_neg (fun hne => hne rfl)]
      exact ih b
    · rw [if_neg h, if_pos (fun he => h he.symm)]
      rw [← ih b]

theorem noRepeats_eq_destutter {α : Type} [DecidableEq α] (l : List α) :
    noRepeats l = l.destutter (· ≠ ·) := by
  cases l with
  | nil => rfl
  | cons a l =>
    show a :: noRepeatsAux a l = List.destutter (· ≠ ·) (a :: l)
    rw [List.destutter_cons']
    exact noRepeatsAux_eq_destutter' l a

/-- C8: the consecutive-repeat deduplication step of `make_shingles` is
idempotent: deduplicating an already-deduplicated sequence changes
nothing. -/
theorem noRepeats_idem {α : Type} [DecidableEq α] (l : List α) :
    noRepeats (noRepeats l) = noRepeats l := by
  rw [noRepeats_eq_destutter, noRepeats_eq_destutter]
  exact List.destutter_idem _ _

theorem noRepeats_idem_witness :
    noRepeats (noRepeats [1, 1, 2, 2, 2, 3]) = noRepeats [1, 1, 2, 2, 2, 3] :=
  noRepeats_idem [1, 1, 2, 2, 2, 3]

/-- C2: for `size ≥ 1`, `make_shingles(raw, size)` is exactly the set of
space-joined length-`size` sliding windows of the run-collapsed sequence
(`make_shingles_specModel`, written from the spec's words); in particular
the result is empty when the deduplicated sequence is shorter than
`size`. -/
theorem make_shingles_spec (raw : List (List Char)) (size : Nat) (hsz : 1 ≤ size) :
    make_shingles raw size = make_shingles_specModel raw size ∧
    ((raw.destutter (· ≠ ·)).length < size → make_shingles raw size = ∅) := by
  constructor
  · unfold make_shingles make_shingles_specModel
    rw [noRepeats_eq_destutter, window_eq _ size hsz, List.map_map]
    rfl
  · intro h
    unfold make_shingles
    rw [noRepeats_eq_destutter, window_eq _ size hsz]
    have h0 : (raw.destutter (· ≠ ·)).length + 1 - size = 0 := by omega
    rw [h0]
    rfl

theorem make_shingles_spec_witness :
    make_shingles [['a'], ['b'], ['b'], ['c']] 2 =
      make_shingles_specModel [['a'], ['b'], ['b'], ['c']] 2 ∧
    (([['a'], ['b'], ['b'], ['c']].destutter (· ≠ ·)).length < 2 →
      make_shingles [['a'], ['b'], ['b'], ['c']] 2 = ∅) :=
  make_shingles_spec [['a'], ['b'], ['b'], ['c']] 2 (by decide)

/-! ## Shape of the shingles (split/join round trip) -/

theorem splitOnChar_not_mem {c : Char} {g : List Char} (h : c ∉ g) :
    splitOnChar c g = [g] := by
  induction g with
  | nil => rfl
  | cons a l ih =>
    have hac : ¬(a = c) := fun hc => h (List.mem_cons.mpr (Or.inl hc.symm))
    show (if a = c then [] :: splitOnChar c l
      else match splitOnChar c l with
        | [] => [[a]]
        | g :: gs => (a :: g) :: gs) = [a :: l]
    rw [if_neg hac, ih (fun hc => h (List.mem_cons_of_mem _ hc))]

theorem splitOnChar_append {c : Char} {g rest : List Char} (h : c ∉ g) :
    splitOnChar c (g ++ c :: rest) = g :: splitOnChar c rest := by
  induction g with
  | nil =>
    show (if c = c then [] :: splitOnChar c rest
      else match splitOnChar c rest with
        | [] => [[c]]
        | g :: gs => (c :: g) :: gs) = [] :: splitOnChar c rest
    rw [if_pos rfl]
  | cons a l ih =>
    have hac : ¬(a = c) := fun hc => h (List.mem_cons.mpr (Or.inl hc.symm))
    show (if a = c then [] :: splitOnChar c (l ++ c :: rest)
      else match splitOnChar c (l ++ c :: rest) with
        | [] => [[a]]
        | g :: gs => (a :: g) :: gs) = (a :: l) :: splitOnChar c rest
    rw [if_neg hac, ih (fun hc => h (List.mem_cons_of_mem _ hc))]

theorem splitOnChar_joinSpace {group : List (List Char)} (hne : group ≠ [])
    (h : ∀ g ∈ group, ' ' ∉ g) : splitOnChar ' ' (joinSpace group) = group := by
  induction group with
  | nil => exact absurd rfl hne
  | cons g gs ih =>
    cases gs with
    | nil => exact splitOnChar_not_mem (h g (List.mem_cons_self g []))
    | cons g2 gs2 =>
      show splitOnChar ' ' (g ++ ' ' :: joinSpace (g2 :: gs2)) = g :: g2 :: gs2
      rw [splitOnChar_append (h g (List.mem_cons_self _ _))]
      rw [ih (List.cons_ne_nil g2 gs2) (fun x hx => h x (List.mem_cons_of_mem _ hx))]

/-- C9: when no input symbol contains a space and `size ≥ 1`, every
shingle produced by `make_shingles` splits on the space character into
exactly `size` symbols, and no two adjacent symbols in a shingle are
equal. -/
theorem make_shingles_shape (raw : List (List Char)) (size : Nat) (hsz : 1 ≤ size)
    (hsp : ∀ sym ∈ raw, ' ' ∉ sym) :
    ∀ sh ∈ make_shingles raw size,
      (splitOnChar ' ' sh).length = size ∧
      (splitOnChar ' ' sh).Chain' (· ≠ ·) := by
  intro sh hsh
  rw [make_shingles, List.mem_toFinset] at hsh
  rcases List.mem_map.mp hsh with ⟨group, hg, rfl⟩
  rw [noRepeats_eq_destutter, window_eq _ size hsz] at hg
  rcases List.mem_map.mp hg with ⟨i, hi, rfl⟩
  rw [List.mem_range] at hi
  have hlen : (((raw.destutter (· ≠ ·)).drop i).take size).length = size := by
    rw [List.length_take, List.length_drop]
    omega
  have hne : ((raw.destutter (· ≠ ·)).drop i).take size ≠ [] := by
    intro he
    rw [he] at hlen
    simp at hlen
    omega
  have hmem : ∀ g ∈ ((raw.destutter (· ≠ ·)).drop i).take size, ' ' ∉ g := by
    intro g hgm
    exact hsp g ((List.destutter_sublist (· ≠ ·) raw).subset
      (List.mem_of_mem_drop (List.mem_of_mem_take hgm)))
  rw [splitOnChar_joinSpace hne hmem]
  exact ⟨hlen, ((List.destutter_is_chain' (· ≠ ·) raw).drop i).take size⟩

theorem make_shingles_shape_witness :
    (splitOnChar ' ' ['a', ' ', 'b']).length = 2 ∧
    (splitOnChar ' ' ['a', ' ', 'b']).Chain' (· ≠ ·) :=
  make_shingles_shape [['a'], ['b']] 2 (by decide) (by decide) ['a', ' ', 'b'] (by decide)

/-! ## Claims about `common_prefix_len` -/

/-- C7: `common_prefix_len` returns the count of leading positions with
equal characters before the first mismatch or the end of the shorter
string; it returns 0 when either string is empty or when the strings
already differ at position 0 (and, being a total Lean function, it never
fails). -/
theorem common_prefix_len_spec (a b : List Char) :
    common_prefix_len a b ≤ min a.length b.length ∧
    a.take (common_prefix_len a b) = b.take (common_prefix_len a b) ∧
    (common_prefix_len a b < min a.length b.length →
      a[common_prefix_len a b]? ≠ b[common_prefix_len a b]?) ∧
    ((a = [] ∨ b = []) → common_prefix_len a b = 0) ∧
    (a[0]? ≠ b[0]? → common_prefix_len a b = 0) := by
  induction a generalizing b with
  | nil =>
    refine ⟨by simp [common_prefix_len], rfl, by simp [common_prefix_len], fun _ => rfl,
      fun _ => rfl⟩
  | cons x xs ih =>
    cases b with
    | nil =>
      refine ⟨by simp [common_prefix_len], rfl, by simp [common_prefix_len], fun _ => rfl,
        fun _ => rfl⟩
    | cons y ys =>
      by_cases hxy : x = y
      · subst hxy
        obtain ⟨h1, h2, h3, _, _⟩ := ih ys
        have hstep : common_prefix_len (x :: xs) (x :: ys) = common_prefix_len xs ys + 1 := by
          show (if x = x then common_prefix_len xs ys + 1 else 0) = _
          rw [if_pos rfl]
        rw [hstep]
        refine ⟨?_, ?_, ?_, ?_, ?_⟩
        · simp only [List.length_cons]
          omega
        · rw [List.take_succ_cons, List.take_succ_cons, h2]
        · intro hlt
          rw [List.getElem?_cons_succ, List.getElem?_cons_succ]
          apply h3
          simp only [List.length_cons] at hlt
          omega
        · rintro (h | h) <;> exact absurd h (List.cons_ne_nil _ _)
        · intro h
          exact absurd (List.getElem?_cons_zero.trans List.getElem?_cons_zero.symm) h
      · have hstep : common_prefix_len (x :: xs) (y :: ys) = 0 := by
          show (if x = y then common_prefix_len xs ys + 1 else 0) = 0
          rw [if_neg hxy]
        rw [hstep]
        refine ⟨Nat.zero_le _, rfl, ?_, fun _ => rfl, fun _ => rfl⟩
        intro _
        rw [List.getElem?_cons_zero, List.getElem?_cons_zero]
        intro hsome
        exact hxy (Option.some.inj hsome)

theorem common_prefix_len_spec_witness :
    common_prefix_len ['a', 'b', 'd'] ['a', 'b', 'c'] ≤
      min (['a', 'b', 'd'] : List Char).length (['a', 'b', 'c'] : List Char).length ∧
    (['a', 'b', 'd'] : List Char).take (common_prefix_len ['a', 'b', 'd'] ['a', 'b', 'c']) =
      (['a', 'b', 'c'] : List Char).take (common_prefix_len ['a', 'b', 'd'] ['a', 'b', 'c']) ∧
    (common_prefix_len ['a', 'b', 'd'] ['a', 'b', 'c'] <
        min (['a', 'b', 'd'] : List Char).length (['a', 'b', 'c'] : List Char).length →
      (['a', 'b', 'd'] : List Char)[common_prefix_len ['a', 'b', 'd'] ['a', 'b', 'c']]? ≠
        (['a', 'b', 'c'] : List Char)[common_prefix_len ['a', 'b', 'd'] ['a', 'b', 'c']]?) ∧
    ((['a', 'b', 'd'] = ([] : List Char) ∨ ['a', 'b', 'c'] = ([] : List Char)) →
      common_prefix_len ['a', 'b', 'd'] ['a', 'b', 'c'] = 0) ∧
    ((['a', 'b', 'd'] : List Char)[0]? ≠ (['a', 'b', 'c'] : List Char)[0]? →
      common_prefix_len ['a', 'b', 'd'] ['a', 'b', 'c'] = 0) :=
  common_prefix_len_spec ['a', 'b', 'd'] ['a', 'b', 'c']

/-- Spec §4.5 worked examples for `common_prefix_len`. -/
theorem common_prefix_len_examples :
    common_prefix_len ("abdef".data) ("abc".data) = 2 ∧
    common_prefix_len ("abc".data) ("abc".data) = 3 ∧
    common_prefix_len ("abc".data) ("xyz".data) = 0 ∧
    common_prefix_len ("abc".data) ("".data) = 0 := by
  refine ⟨?_, ?_, ?_, ?_⟩ <;> decide

/-- C10: `common_prefix_len` is commutative. -/
theorem common_prefix_len_comm (a b : List Char) :
    common_prefix_len a b = common_prefix_len b a := by
  induction a generalizing b with
  | nil => cases b <;> rfl
  | cons x xs ih =>
    cases b with
    | nil => rfl
    | cons y ys =>
      show (if x = y then common_prefix_len xs ys + 1 else 0) =
        (if y = x then common_prefix_len ys xs + 1 else 0)
      by_cases h : x = y
      · rw [if_pos h, if_pos h.symm, ih ys]
      · rw [if_neg h, if_neg (fun hyx => h hyx.symm)]

theorem common_prefix_len_comm_witness :
    common_prefix_len ("abdef".data) ("abc".data) = common_prefix_len ("abc".data) ("abdef".data) :=
  common_prefix_len_comm ("abdef".data) ("abc".data)

end StravaPlot
